import Mathlib

/-!
Shallow embedding of the `verbose-waffle` semantic code-search engine:
the chunker of `src/tools/code-search/indexer.py` and the vector store of
`src/vector_store.py`, together with theorems settling the frozen claims.

External collaborators (the SHA-256 digest function, the sentence-embedding
model and the LanceDB nearest-neighbour engine) are opaque parameters of the
embedded operations, exactly as the specification treats them.
-/

namespace RagSpec

/-- Python `str.strip()` on the default whitespace set, embedded over the
character list (Lean's `Char.isWhitespace` covers space, tab, CR, LF; the
extra Python whitespace code points never occur in the sources or tests). -/
def pyStrip (s : String) : String :=
  String.mk (((s.data.dropWhile Char.isWhitespace).reverse.dropWhile
    Char.isWhitespace).reverse)

/-- Python `"\n".join(xs)`. -/
def joinNL : List String → String
  | [] => ""
  | [s] => s
  | s :: rest => s ++ "\n" ++ joinNL rest

/-- Python `s.count("\n")` for the single-character pattern. -/
def countNL (s : String) : Nat :=
  s.data.count '\n'

/-- Python `s.startswith(p)`. -/
def pyStartsWith (s p : String) : Bool :=
  p.data.isPrefixOf s.data

/-- Helper for `content.split("\n")`: splits a character list at every
newline, keeping empty fields, like Python `str.split` with an explicit
separator. -/
def splitNLAux (acc : List Char) : List Char → List String
  | [] => [String.mk acc.reverse]
  | c :: rest =>
    if c = '\n' then String.mk acc.reverse :: splitNLAux [] rest
    else splitNLAux (c :: acc) rest

/-- Python `content.split("\n")`. -/
def pyLines (s : String) : List String :=
  splitNLAux [] s.data

/-- Helper for `content.split("\n\n")`: greedy left-to-right split at each
non-overlapping blank-line separator, keeping empty fields. -/
def splitParasAux (acc : List Char) : List Char → List String
  | [] => [String.mk acc.reverse]
  | '\n' :: '\n' :: rest => String.mk acc.reverse :: splitParasAux [] rest
  | c :: rest => splitParasAux (c :: acc) rest

/-- Python `content.split("\n\n")`. -/
def pyParas (s : String) : List String :=
  splitParasAux [] s.data

/-- Python `pathlib.Path(p).name`: the final `/`-separated component. -/
def pathName (p : String) : String :=
  (p.splitOn "/").getLastD ""

/-- The opening structural delimiter counted by the chunker. -/
def openBrace : Char := Char.ofNat 123

/-- The closing structural delimiter counted by the chunker. -/
def closeBrace : Char := Char.ofNat 125

namespace CodeIndexer

/-- `CodeIndexer.MIN_CHUNK_CHARS` from `indexer.py`. -/
def MIN_CHUNK_CHARS : Nat := 50

/-- `CodeIndexer.MIN_CHUNK_LINES` from `indexer.py`. -/
def MIN_CHUNK_LINES : Nat := 5

/-- A chunk dictionary as produced by `chunk_code` and `_chunk_text`. -/
structure Chunk where
  content : String
  source : String
  file_path : String
  start_line : Nat
  end_line : Nat
deriving Repr, DecidableEq

/-- Net brace-depth change contributed by one line: the inner
`for char in line` loop of `chunk_code`, which increments on every brace
open and decrements on every brace close found anywhere in the line. -/
def braceDelta (line : String) : Int :=
  line.data.foldl
    (fun d c => if c = openBrace then d + 1 else if c = closeBrace then d - 1 else d)
    0

/-- The loop state of `chunk_code`: emitted chunks, the accumulating
`current_chunk`, `chunk_start_line`, `brace_depth` and `line_number`. -/
structure CodeState where
  chunks : List Chunk
  current_chunk : List String
  chunk_start_line : Nat
  brace_depth : Int
  line_number : Nat
deriving Repr

/-- One iteration of the `for line in lines` loop of `chunk_code`.  The line
is appended to `current_chunk` first, so the guard `and current_chunk` of the
source is always true; the boundary fires exactly when the updated depth is
zero. -/
def chunkCodeStep (fileName filePath : String) (st : CodeState) (line : String) :
    CodeState :=
  let cur := st.current_chunk ++ [line]
  let depth := st.brace_depth + braceDelta line
  if depth = 0 then
    let c := pyStrip (joinNL cur)
    let chunks :=
      if MIN_CHUNK_CHARS ≤ c.length ∧ MIN_CHUNK_LINES ≤ cur.length then
        st.chunks ++ [⟨c, fileName, filePath, st.chunk_start_line, st.line_number⟩]
      else st.chunks
    ⟨chunks, [], st.line_number + 1, depth, st.line_number + 1⟩
  else
    ⟨st.chunks, cur, st.chunk_start_line, depth, st.line_number + 1⟩

/-- The state after the main loop of `chunk_code` over the given lines. -/
def codeFoldState (fileName filePath : String) (lines : List String) : CodeState :=
  lines.foldl (chunkCodeStep fileName filePath) ⟨[], [], 1, 0, 1⟩

/-- The trailing-content flush of `chunk_code` (`if current_chunk:` after the
loop): keeps the remaining lines as a final chunk under the same size floor,
with `end_line` taken from the final `line_number`. -/
def codeFlush (fileName filePath : String) (st : CodeState) : List Chunk :=
  if st.current_chunk ≠ [] then
    let c := pyStrip (joinNL st.current_chunk)
    if MIN_CHUNK_CHARS ≤ c.length ∧ MIN_CHUNK_LINES ≤ st.current_chunk.length then
      st.chunks ++ [⟨c, fileName, filePath, st.chunk_start_line, st.line_number⟩]
    else st.chunks
  else st.chunks

/-- `CodeIndexer.chunk_code` on the list of lines `content.split("\n")`. -/
def chunkCodeLines (fileName filePath : String) (lines : List String) : List Chunk :=
  codeFlush fileName filePath (codeFoldState fileName filePath lines)

/-- `CodeIndexer.chunk_code` from `indexer.py` (structural strategy for code
files; the `.md`/`.txt` dispatch to `_chunk_text` is modelled separately). -/
def chunk_code (fileName filePath : String) (content : String) : List Chunk :=
  chunkCodeLines fileName filePath (pyLines content)

/-- Cumulative brace depth after the first `k` lines. -/
def depthAfter (lines : List String) (k : Nat) : Int :=
  ((lines.take k).map braceDelta).sum

/-- Properties of a chunk emitted by an in-loop boundary of `chunk_code`,
relative to the full list of lines. -/
structure ChunkOK (lines : List String) (ch : Chunk) : Prop where
  chars_lb : MIN_CHUNK_CHARS ≤ ch.content.length
  chars_ub : ch.content.length ≤ (joinNL lines).length
  span : ch.start_line + MIN_CHUNK_LINES ≤ ch.end_line + 1
  start_pos : 1 ≤ ch.start_line
  end_le : ch.end_line ≤ lines.length
  depth0 : depthAfter lines ch.end_line = 0

/-- Invariant of the `chunk_code` loop after consuming a prefix of the
lines. -/
structure LoopInv (lines consumed : List String) (st : CodeState) : Prop where
  ln : st.line_number = consumed.length + 1
  depth : st.brace_depth = (consumed.map braceDelta).sum
  start_add : st.chunk_start_line + st.current_chunk.length = st.line_number
  start_pos : 1 ≤ st.chunk_start_line
  cur_suffix : st.current_chunk <:+ consumed
  chunks_ok : ∀ ch ∈ st.chunks, ChunkOK lines ch
  chain : st.chunks.Chain' (fun a b => a.end_line < b.start_line)
  end_lt : ∀ ch ∈ st.chunks, ch.end_line < st.chunk_start_line

/-- Loop state of the chunker described by the spec's words, which differ
from the code by emitting a boundary only when the depth returns to zero
after having been non-zero; `sawNonzero` records whether the depth has been
non-zero since the last boundary. -/
structure CodeSpecState where
  chunks : List Chunk
  current_chunk : List String
  chunk_start_line : Nat
  brace_depth : Int
  line_number : Nat
  sawNonzero : Bool
deriving Repr

/-- One line of the spec-words chunker: identical to `chunkCodeStep` except
that the boundary fires only when the updated depth is zero and the depth
has been non-zero since the last boundary. -/
def chunkCodeSpecStep (fileName filePath : String) (st : CodeSpecState)
    (line : String) : CodeSpecState :=
  let cur := st.current_chunk ++ [line]
  let depth := st.brace_depth + braceDelta line
  if depth = 0 ∧ st.sawNonzero then
    let c := pyStrip (joinNL cur)
    let chunks :=
      if MIN_CHUNK_CHARS ≤ c.length ∧ MIN_CHUNK_LINES ≤ cur.length then
        st.chunks ++ [⟨c, fileName, filePath, st.chunk_start_line, st.line_number⟩]
      else st.chunks
    ⟨chunks, [], st.line_number + 1, depth, st.line_number + 1, false⟩
  else
    ⟨st.chunks, cur, st.chunk_start_line, depth, st.line_number + 1,
      st.sawNonzero || decide (depth ≠ 0)⟩

/-- The structural chunker as the spec words it ("a chunk boundary is
emitted whenever depth returns to exactly zero after having been non-zero"),
written only for comparison against `chunk_code`; trailing content is
flushed under the same size floor. -/
def chunkCodeSpecWords (fileName filePath : String) (content : String) :
    List Chunk :=
  let lines := pyLines content
  let st := lines.foldl (chunkCodeSpecStep fileName filePath)
    ⟨[], [], 1, 0, 1, false⟩
  if st.current_chunk ≠ [] then
    let c := pyStrip (joinNL st.current_chunk)
    if MIN_CHUNK_CHARS ≤ c.length ∧ MIN_CHUNK_LINES ≤ st.current_chunk.length then
      st.chunks ++ [⟨c, fileName, filePath, st.chunk_start_line, st.line_number⟩]
    else st.chunks
  else st.chunks

/-- One iteration of the paragraph loop of `CodeIndexer._chunk_text`:
strip the paragraph, keep it when the stripped length meets the character
floor, and advance the running line counter (kept paragraphs advance by the
stripped line count, skipped ones by the raw line count, plus two lines for
the blank separator in both cases). -/
def chunkTextStep (fileName filePath : String) (st : List Chunk × Nat)
    (para : String) : List Chunk × Nat :=
  let p := pyStrip para
  if MIN_CHUNK_CHARS ≤ p.length then
    let numLines := countNL p + 1
    (st.1 ++ [⟨p, fileName, filePath, st.2, st.2 + numLines - 1⟩],
      st.2 + numLines + 2)
  else
    (st.1, st.2 + (countNL para + 1) + 2)

/-- `CodeIndexer._chunk_text` on the paragraph list `content.split("\n\n")`. -/
def chunkTextParas (fileName filePath : String) (paras : List String) : List Chunk :=
  (paras.foldl (chunkTextStep fileName filePath) ([], 1)).1

/-- `CodeIndexer._chunk_text` from `indexer.py` (paragraph strategy for
`.md`/`.txt` files). -/
def chunk_text (fileName filePath : String) (content : String) : List Chunk :=
  chunkTextParas fileName filePath (pyParas content)

end CodeIndexer

namespace VectorStore

/-- A persisted record of the `code_chunks` collection, with the schema built
in `VectorStore.add_chunks` (`src/vector_store.py`).  The embedding vector is
whatever the opaque model returned; the timestamp is the wall-clock string
`datetime.now().isoformat()` passed in as an explicit input. -/
structure Record where
  vector : List ℚ
  content : String
  source : String
  file_path : String
  chunk_hash : String
  timestamp : String
  start_line : Nat
  end_line : Nat
deriving Repr, DecidableEq

/-- An input chunk dictionary as read by `add_chunks` through `chunk.get`:
a missing `content`/`file_path` defaults to `""`, a missing `source` falls
back to `Path(file_path).name`, missing line numbers default to `0`. -/
structure ChunkDict where
  content : String := ""
  file_path : String := ""
  source : Option String := none
  start_line : Nat := 0
  end_line : Nat := 0
deriving Repr, DecidableEq

/-- The pre-digest string of `VectorStore._compute_hash`: the Python
f-string interpolating `file_path`, a colon, and `content`. -/
def compute_hash_data (content file_path : String) : String :=
  file_path ++ ":" ++ content

/-- `VectorStore._compute_hash`: the SHA-256 hex digest (opaque parameter
`sha`) of the joined path-and-content string. -/
def compute_hash (sha : String → String) (content file_path : String) : String :=
  sha (compute_hash_data content file_path)

/-- The record built for one well-formed chunk inside `add_chunks`. -/
def mkRecord (embed : String → List ℚ) (sha : String → String) (now : String)
    (c : ChunkDict) : Record where
  vector := embed c.content
  content := c.content
  source := c.source.getD (pathName c.file_path)
  file_path := c.file_path
  chunk_hash := compute_hash sha c.content c.file_path
  timestamp := now
  start_line := c.start_line
  end_line := c.end_line

/-- The record-preparation loop of `add_chunks`: chunks with an empty
`content` or `file_path` are skipped (`continue`), the rest become records
in batch order. -/
def batchRecords (embed : String → List ℚ) (sha : String → String)
    (now : String) (chunks : List ChunkDict) : List Record :=
  chunks.filterMap (fun c =>
    if c.content = "" ∨ c.file_path = "" then none
    else some (mkRecord embed sha now c))

/-- `VectorStore.add_chunks` from `src/vector_store.py`.  The store state is
`none` while the collection is absent and `some rows` once it exists; the
result pairs the new state with the returned insertion count.  An empty
batch raises `ValueError`; when the collection already exists, only records
whose `chunk_hash` is not among the already-stored hashes are appended. -/
def add_chunks (embed : String → List ℚ) (sha : String → String) (now : String)
    (table : Option (List Record)) (chunks : List ChunkDict) :
    Except String (Option (List Record) × Nat) :=
  if chunks.isEmpty then .error "Chunks list cannot be empty"
  else
    let records := batchRecords embed sha now chunks
    if records.isEmpty then .ok (table, 0)
    else
      match table with
      | none => .ok (some records, records.length)
      | some rows =>
        let existingHashes := rows.map (fun r => r.chunk_hash)
        let newRecords := records.filter (fun r => r.chunk_hash ∉ existingHashes)
        .ok (some (rows ++ newRecords), newRecords.length)

/-- A formatted search result of `VectorStore.search`; `score` is the
`_distance` column reported by the nearest-neighbour engine. -/
structure SearchMatch where
  content : String
  source : String
  file_path : String
  score : ℚ
  start_line : Nat
  end_line : Nat
deriving Repr, DecidableEq

/-- The match dictionary built for one result row in `search`. -/
def mkMatch (rd : Record × ℚ) : SearchMatch where
  content := rd.1.content
  source := rd.1.source
  file_path := rd.1.file_path
  score := rd.2
  start_line := rd.1.start_line
  end_line := rd.1.end_line

/-- The path post-filter of `search`: a row is dropped exactly when
`filter_path` is truthy (present and non-empty) and the row's `file_path`
does not start with it. -/
def keepRow (filter_path : Option String) (rd : Record × ℚ) : Bool :=
  match filter_path with
  | none => true
  | some fp => if fp = "" then true else pyStartsWith rd.1.file_path fp

/-- `VectorStore.search` from `src/vector_store.py`.  The LanceDB scan
`table.search(vec).limit(top_k)` is the opaque parameter `nn`, returning
ranked rows with their `_distance`; the code then post-filters by path
prefix, formats matches in order, and truncates to `top_k`. -/
def search (embed : String → List ℚ)
    (nn : List Record → List ℚ → Nat → List (Record × ℚ))
    (table : Option (List Record)) (query : String) (top_k : Nat)
    (filter_path : Option String) : Except String (List SearchMatch) :=
  if query = "" then .error "Query cannot be empty"
  else
    match table with
    | none => .error "No data indexed yet. Run indexer.py first."
    | some rows =>
      let results := nn rows (embed query) top_k
      let ms := (results.filter (keepRow filter_path)).map mkMatch
      .ok (ms.take top_k)

/-- Modelled from the spec: `removeByFile(filePath) -> count removed`
(section 4.4).  The implementing method `remove_chunks_by_file` lives in the
code-search `vector_store.py`, which is absent from the sources (only its
tests and its caller `CodeIndexer._remove_deleted_files` are present).  Per
the spec it deletes all records whose `filePath` equals the argument by
scanning, filtering and rebuilding the collection, and returns the count of
deleted records. -/
def remove_by_file (rows : List Record) (fp : String) : List Record × Nat :=
  (rows.filter (fun r => r.file_path ≠ fp), rows.countP (fun r => r.file_path = fp))

/-- Modelled from the spec: `addChunks(records, updateExisting)` (section
4.4 steps 1-5).  The code-search `vector_store.py` implementing the
`update_existing` flag is absent from the sources (only its tests and its
caller `CodeIndexer.index` are present).  Per the spec: malformed chunks are
skipped; when `updateExisting` is set, the first time a `filePath` is seen
in the batch all stored records for that `filePath` are purged; the
collection is created from the batch when absent; otherwise records whose
fingerprint is already present are skipped and the rest appended, returning
the inserted count (zero net-new input returns 0, never fails). -/
def add_chunks_update (embed : String → List ℚ) (sha : String → String)
    (now : String) (table : Option (List Record)) (chunks : List ChunkDict)
    (update_existing : Bool) : Option (List Record) × Nat :=
  let records := batchRecords embed sha now chunks
  if records.isEmpty then (table, 0)
  else
    match table with
    | none => (some records, records.length)
    | some rows =>
      let batchPaths := records.map (fun r => r.file_path)
      let rows1 :=
        if update_existing then rows.filter (fun r => r.file_path ∉ batchPaths)
        else rows
      let existingHashes := rows1.map (fun r => r.chunk_hash)
      let newRecords := records.filter (fun r => r.chunk_hash ∉ existingHashes)
      (some (rows1 ++ newRecords), newRecords.length)

end VectorStore

namespace Ex

open CodeIndexer VectorStore

/-- A trivial stand-in for the opaque sentence-transformer embedding. -/
def embed0 : String → List ℚ := fun _ => []

/-- A stand-in digest function for concrete evaluations; identical inputs
give identical digests, as for the real SHA-256. -/
def sha0 : String → String := fun s => s

/-- The test chunk of the `vector_store.py` self-test block. -/
def gmChunk : ChunkDict :=
  { content := "public class GameManager", file_path := "/test/GameManager.cs" }

/-- The record `add_chunks` builds for `gmChunk`. -/
def gmRecord : Record := mkRecord embed0 sha0 "t" gmChunk

/-- Five brace-less lines: every line leaves the running depth at zero. -/
def flatLines : List String := List.replicate 5 "abcdefghijkl"

/-- The five brace-less lines as one file content. -/
def flatContent : String := joinNL flatLines

/-- A 20-line source file with two top-level brace-delimited blocks of ten
lines each (braces written as escapes). -/
def twentyLines : List String :=
  ["public class A \x7b", "  void M() \x7b", "    int a = 0;", "    int b = 0;",
   "    int c = 0;", "    int d = 0;", "    int e = 0;", "    int f = 0;",
   "  \x7d", "\x7d",
   "public class B \x7b", "  void N() \x7b", "    int a = 1;", "    int b = 1;",
   "    int c = 1;", "    int d = 1;", "    int e = 1;", "    int f = 1;",
   "  \x7d", "\x7d"]

/-- The 20-line two-block file as one content string. -/
def twentyContent : String := joinNL twentyLines

/-- A file whose opening brace is never closed, so the last chunk can only
come from the end-of-input flush. -/
def unbalContent : String :=
  joinNL ["void LongFunction() \x7b", "    alpha beta gamma;",
    "    delta epsilon zeta;", "    eta theta iota;", "    kappa lambda mu;",
    "    nu xi omicron;"]

/-- A three-paragraph prose file whose middle paragraph is one short word. -/
def proseContent : String :=
  "This is the first paragraph and it is certainly longer " ++
  "than fifty characters in total.\n\nhi\n\nThis is the third paragraph " ++
  "and it is also definitely longer than fifty characters overall."

/-- A stored record for concrete store scenarios. -/
def exRec (c fp : String) : Record :=
  { vector := [], content := c, source := pathName fp, file_path := fp,
    chunk_hash := compute_hash sha0 c fp, timestamp := "t",
    start_line := 1, end_line := 1 }

/-- Five stored records spread over three files; three belong to `/a.cs`. -/
def rows5 : List Record :=
  [exRec "c1" "/a.cs", exRec "c2" "/a.cs", exRec "c3" "/a.cs",
   exRec "d1" "/b.cs", exRec "d2" "/c.md"]

/-- A store with two matching records under `/keep/` and one elsewhere. -/
def demoRows : List Record :=
  [exRec "k1" "/keep/a.cs", exRec "k2" "/keep/b.cs", exRec "o1" "/other/c.cs"]

/-- A nearest-neighbour engine whose two top-ranked rows for any query are
the record outside `/keep/` followed by one record inside it, modelling a
limited scan that spends one of its slots on a row the post-filter drops. -/
def nnDemo : List Record → List ℚ → Nat → List (Record × ℚ) :=
  fun _ _ k => [(exRec "o1" "/other/c.cs", 0), (exRec "k1" "/keep/a.cs", 1)].take k

/-- A store holding two old chunks of `/f.cs` and one chunk of `/g.cs`. -/
def owRows : List Record :=
  [exRec "old one" "/f.cs", exRec "old two" "/f.cs", exRec "keep" "/g.cs"]

/-- A re-index batch of three fresh chunks, all for `/f.cs`. -/
def fChunks : List ChunkDict :=
  [{ content := "new one", file_path := "/f.cs" },
   { content := "new two", file_path := "/f.cs" },
   { content := "new three", file_path := "/f.cs" }]

end Ex

open CodeIndexer VectorStore Ex

/-- Equal digests of the fingerprint pre-image with equal content force
equal paths: the trailing `:content` suffix cancels. -/
theorem compute_hash_data_path_cancel {c p1 p2 : String}
    (h : compute_hash_data c p1 = compute_hash_data c p2) : p1 = p2 := by
  have hd := congrArg String.data h
  simp only [compute_hash_data, String.data_append] at hd
  exact String.ext (List.append_cancel_right (List.append_cancel_right hd))

/-- Equal digests of the fingerprint pre-image with equal paths force equal
content: the leading `path:` part cancels. -/
theorem compute_hash_data_content_cancel {p c1 c2 : String}
    (h : compute_hash_data c1 p = compute_hash_data c2 p) : c1 = c2 := by
  have hd := congrArg String.data h
  simp only [compute_hash_data, String.data_append] at hd
  exact String.ext (List.append_cancel_left hd)

/-- C7: the fingerprint is deterministic in `(filePath, content)`, and two
pairs that agree only on content or only on filePath always have distinct
pre-digest strings, hence distinct digests for any collision-free digest
function. -/
theorem c7_fingerprint_determinism_and_separation
    (sha : String → String) (hsha : Function.Injective sha) :
    (∀ c1 p1 c2 p2 : String, c1 = c2 → p1 = p2 →
      compute_hash sha c1 p1 = compute_hash sha c2 p2) ∧
    (∀ c p1 p2 : String, p1 ≠ p2 →
      compute_hash_data c p1 ≠ compute_hash_data c p2 ∧
      compute_hash sha c p1 ≠ compute_hash sha c p2) ∧
    (∀ p c1 c2 : String, c1 ≠ c2 →
      compute_hash_data c1 p ≠ compute_hash_data c2 p ∧
      compute_hash sha c1 p ≠ compute_hash sha c2 p) := by
  refine ⟨fun c1 p1 c2 p2 hc hp => by rw [hc, hp], fun c p1 p2 hne => ?_,
    fun p c1 c2 hne => ?_⟩
  · have hdata : compute_hash_data c p1 ≠ compute_hash_data c p2 :=
      fun h => hne (compute_hash_data_path_cancel h)
    exact ⟨hdata, fun h => hdata (hsha h)⟩
  · have hdata : compute_hash_data c1 p ≠ compute_hash_data c2 p :=
      fun h => hne (compute_hash_data_content_cancel h)
    exact ⟨hdata, fun h => hdata (hsha h)⟩

/-- Witness for C7 at concrete inputs with an injective digest stand-in. -/
theorem c7_witness :
    Function.Injective (fun s : String => s) ∧
    compute_hash (fun s : String => s) "class A" "/a.cs" ≠
      compute_hash (fun s : String => s) "class A" "/b.cs" :=
  ⟨fun _ _ h => h,
    ((c7_fingerprint_determinism_and_separation (fun s => s)
      (fun _ _ h => h)).2.1 "class A" "/a.cs" "/b.cs" (by decide)).2⟩

/-- C4 (amended): `VectorStore.search` raises the empty-query error exactly
when the query is the empty string (the code tests `not query`, without
trimming), raises the not-indexed error when the collection is absent, and
for every non-empty query against an existing collection raises neither,
returning the formatted matches. -/
theorem c4_search_error_behaviour (embed : String → List ℚ)
    (nn : List Record → List ℚ → Nat → List (Record × ℚ))
    (table : Option (List Record)) (query : String) (top_k : Nat)
    (fp : Option String) :
    (query = "" →
      search embed nn table query top_k fp = .error "Query cannot be empty") ∧
    (query ≠ "" → table = none →
      search embed nn table query top_k fp =
        .error "No data indexed yet. Run indexer.py first.") ∧
    (∀ rows, query ≠ "" → table = some rows →
      search embed nn table query top_k fp =
        .ok ((((nn rows (embed query) top_k).filter
          (keepRow fp)).map mkMatch).take top_k)) := by
  refine ⟨fun hq => ?_, fun hq ht => ?_, fun rows hq ht => ?_⟩
  · simp [search, hq]
  · simp [search, hq, ht]
  · simp [search, hq, ht]

/-- Witness for C4 at concrete inputs: the empty query errors, the absent
collection errors, and a non-empty query on an existing collection does
not. -/
theorem c4_witness :
    ("" : String) = "" ∧ ("q" : String) ≠ "" ∧
    search embed0 nnDemo (some demoRows) "" 5 none =
      .error "Query cannot be empty" ∧
    search embed0 nnDemo none "q" 5 none =
      .error "No data indexed yet. Run indexer.py first." ∧
    search embed0 nnDemo (some demoRows) "q" 2 none =
      .ok ((((nnDemo demoRows (embed0 "q") 2).filter
        (keepRow none)).map mkMatch).take 2) :=
  ⟨rfl, by decide,
    (c4_search_error_behaviour embed0 nnDemo (some demoRows) "" 5 none).1 rfl,
    (c4_search_error_behaviour embed0 nnDemo none "q" 5 none).2.1
      (by decide) rfl,
    (c4_search_error_behaviour embed0 nnDemo (some demoRows) "q" 2 none).2.2
      demoRows (by decide) rfl⟩

/-- C4 counterexample to the claim as stated: the query consisting of one
space trims to empty, yet `search` raises no error on an existing
collection — the code checks `not query`, which is false for a whitespace
query. -/
theorem c4_counterexample :
    pyStrip " " = "" ∧ (" " : String) ≠ "" ∧
    search embed0 (fun _ _ _ => []) (some []) " " 5 none = .ok [] := by
  refine ⟨rfl, by decide, ?_⟩
  simp [search]

/-- The record-preparation loop of `add_chunks` keeps exactly the
well-formed chunks, in batch order. -/
theorem batchRecords_eq (embed : String → List ℚ) (sha : String → String)
    (now : String) (chunks : List ChunkDict) :
    batchRecords embed sha now chunks =
      (chunks.filter (fun c => decide (c.content ≠ "" ∧ c.file_path ≠ ""))).map
        (mkRecord embed sha now) := by
  induction chunks with
  | nil => rfl
  | cons c t ih =>
    simp only [batchRecords, List.filterMap_cons, List.filter_cons] at ih ⊢
    by_cases h1 : c.content = ""
    · simp [h1, ih]
    · by_cases h2 : c.file_path = ""
      · simp [h1, h2, ih]
      · simp [h1, h2, ih]

/-- Evaluation of `add_chunks` on an existing collection and a non-empty
batch: the result appends exactly the prepared records whose hash is not
already stored, and reports their number. -/
theorem add_chunks_some_eq (embed : String → List ℚ) (sha : String → String)
    (now : String) (rows : List Record) (chunks : List ChunkDict)
    (hne : chunks ≠ []) :
    add_chunks embed sha now (some rows) chunks =
      .ok (some (rows ++ (batchRecords embed sha now chunks).filter
          (fun r => r.chunk_hash ∉ rows.map (fun x => x.chunk_hash))),
        ((batchRecords embed sha now chunks).filter
          (fun r => r.chunk_hash ∉ rows.map (fun x => x.chunk_hash))).length) := by
  have h1 : chunks.isEmpty = false := by
    cases chunks with
    | nil => exact absurd rfl hne
    | cons a b => rfl
  by_cases hrec : batchRecords embed sha now chunks = []
  · simp [add_chunks, h1, hrec]
  · have h2 : (batchRecords embed sha now chunks).isEmpty = false := by
      cases hb : batchRecords embed sha now chunks with
      | nil => exact absurd hb hrec
      | cons a b => rfl
    simp [add_chunks, h1, h2]

/-- C8 (amended): `add_chunks` skips malformed chunks and returns `0`
rather than raising when no record is genuinely new — all records malformed
or all fingerprints already stored — but an empty batch raises the
`ValueError` `"Chunks list cannot be empty"`; the insertion count never
exceeds the number of well-formed chunks in the batch. -/
theorem c8_add_chunks_zero_net_new (embed : String → List ℚ)
    (sha : String → String) (now : String) (table : Option (List Record))
    (chunks : List ChunkDict) :
    (chunks = [] → add_chunks embed sha now table chunks =
      .error "Chunks list cannot be empty") ∧
    ((∀ c ∈ chunks, c.content = "" ∨ c.file_path = "") → chunks ≠ [] →
      add_chunks embed sha now table chunks = .ok (table, 0)) ∧
    (∀ rows, table = some rows →
      (∀ c ∈ chunks, compute_hash sha c.content c.file_path ∈
        rows.map (fun r => r.chunk_hash)) →
      chunks ≠ [] →
      add_chunks embed sha now table chunks = .ok (some rows, 0)) ∧
    (∀ st n, add_chunks embed sha now table chunks = .ok (st, n) →
      n ≤ chunks.countP (fun c => decide (c.content ≠ "" ∧ c.file_path ≠ ""))) := by
  refine ⟨fun h => by subst h; rfl, fun hmal hne => ?_, fun rows ht hdup hne => ?_,
    fun st n hok => ?_⟩
  · have hrec : batchRecords embed sha now chunks = [] := by
      rw [batchRecords_eq]
      simp only [List.map_eq_nil_iff, List.filter_eq_nil_iff]
      intro c hc
      simp only [decide_eq_true_eq, not_and_or, not_not]
      rcases hmal c hc with h | h
      · exact Or.inl h
      · exact Or.inr h
    simp [add_chunks, hrec, hne]
  · subst ht
    have hnew : (batchRecords embed sha now chunks).filter
        (fun r => r.chunk_hash ∉ rows.map (fun x => x.chunk_hash)) = [] := by
      rw [List.filter_eq_nil_iff]
      intro r hr
      rw [batchRecords_eq] at hr
      obtain ⟨c, hc, hcr⟩ := List.mem_map.1 hr
      have hcmem := List.mem_of_mem_filter hc
      simp only [decide_eq_true_eq, not_not]
      subst hcr
      exact hdup c hcmem
    rw [add_chunks_some_eq embed sha now rows chunks hne, hnew]
    simp
  · have hlen : (batchRecords embed sha now chunks).length =
        chunks.countP (fun c => decide (c.content ≠ "" ∧ c.file_path ≠ "")) := by
      rw [batchRecords_eq, List.length_map, List.countP_eq_length_filter]
    by_cases hne : chunks = []
    · subst hne; simp [add_chunks] at hok
    · have h1 : chunks.isEmpty = false := by
        cases chunks with
        | nil => exact absurd rfl hne
        | cons a b => rfl
      cases table with
      | none =>
        by_cases hrec : batchRecords embed sha now chunks = []
        · simp [add_chunks, h1, hrec] at hok
          omega
        · have h2 : (batchRecords embed sha now chunks).isEmpty = false := by
            cases hb : batchRecords embed sha now chunks with
            | nil => exact absurd hb hrec
            | cons a b => rfl
          simp only [add_chunks, h1, Bool.false_eq_true, if_false, h2,
            Except.ok.injEq, Prod.mk.injEq] at hok
          omega
      | some rows =>
        rw [add_chunks_some_eq embed sha now rows chunks hne] at hok
        simp only [Except.ok.injEq, Prod.mk.injEq] at hok
        have hfl := List.length_filter_le
          (fun r => decide (r.chunk_hash ∉ rows.map (fun x => x.chunk_hash)))
          (batchRecords embed sha now chunks)
        omega

/-- Witness for C8 at concrete inputs: a batch of one malformed chunk
returns `0`, and a batch whose only fingerprint is already stored returns
`0` with the store unchanged. -/
theorem c8_witness :
    (∀ c ∈ [({ content := "", file_path := "/x.cs" } : ChunkDict)],
      c.content = "" ∨ c.file_path = "") ∧
    add_chunks embed0 sha0 "t" (some [gmRecord])
      [{ content := "", file_path := "/x.cs" }] = .ok (some [gmRecord], 0) ∧
    add_chunks embed0 sha0 "t2" (some [gmRecord]) [gmChunk] =
      .ok (some [gmRecord], 0) := by
  refine ⟨by decide, ?_, ?_⟩
  · exact (c8_add_chunks_zero_net_new embed0 sha0 "t" (some [gmRecord])
      [{ content := "", file_path := "/x.cs" }]).2.1 (by decide) (by decide)
  · exact (c8_add_chunks_zero_net_new embed0 sha0 "t2" (some [gmRecord])
      [gmChunk]).2.2.1 [gmRecord] rfl (by decide) (by decide)

/-- C8 counterexample to the claim as stated: the empty batch raises the
`ValueError` instead of returning `0`. -/
theorem c8_counterexample :
    add_chunks embed0 sha0 "t" (some []) ([] : List ChunkDict) =
      .error "Chunks list cannot be empty" := rfl

/-- C2 (amended): chunks with identical `(filePath, content)` always
produce the same fingerprint, and `add_chunks` on an existing collection
appends only records whose fingerprint is absent from the previously
persisted rows; however deduplication is computed against the pre-existing
store only, so duplicates arriving within a single batch may both persist. -/
theorem c2_fingerprint_dedup_against_store (embed : String → List ℚ)
    (sha : String → String) (now : String) (rows : List Record)
    (chunks : List ChunkDict) (hne : chunks ≠ []) :
    (∀ c1 c2 : ChunkDict, c1.content = c2.content →
      c1.file_path = c2.file_path →
      compute_hash sha c1.content c1.file_path =
        compute_hash sha c2.content c2.file_path) ∧
    ∃ ins, add_chunks embed sha now (some rows) chunks =
        .ok (some (rows ++ ins), ins.length) ∧
      ∀ r ∈ ins, r.chunk_hash ∉ rows.map (fun x => x.chunk_hash) := by
  refine ⟨fun c1 c2 hc hp => by rw [hc, hp], ?_⟩
  refine ⟨(batchRecords embed sha now chunks).filter
    (fun r => r.chunk_hash ∉ rows.map (fun x => x.chunk_hash)),
    add_chunks_some_eq embed sha now rows chunks hne, ?_⟩
  intro r hr
  simpa using List.of_mem_filter hr

/-- Witness for C2 at concrete inputs: re-adding the already-stored test
chunk inserts nothing. -/
theorem c2_witness :
    ([gmChunk] : List ChunkDict) ≠ [] ∧
    (∃ ins, add_chunks embed0 sha0 "t2" (some [gmRecord]) [gmChunk] =
        .ok (some ([gmRecord] ++ ins), ins.length) ∧
      ∀ r ∈ ins, r.chunk_hash ∉ [gmRecord].map (fun x => x.chunk_hash)) :=
  ⟨by decide,
    (c2_fingerprint_dedup_against_store embed0 sha0 "t2" [gmRecord] [gmChunk]
      (by decide)).2⟩

/-- C2 counterexample to the claim as stated: a single batch containing the
same chunk twice, added to an absent collection, persists two records with
the same fingerprint. -/
theorem c2_counterexample :
    add_chunks embed0 sha0 "t" none [gmChunk, gmChunk] =
      .ok (some [gmRecord, gmRecord], 2) ∧
    ¬ ([gmRecord, gmRecord] : List Record).Pairwise
      (fun a b => a.chunk_hash ≠ b.chunk_hash) := by
  refine ⟨rfl, fun h => ?_⟩
  exact (List.pairwise_cons.1 h).1 gmRecord (by simp) rfl

/-- C5: for a non-empty query on an existing collection, `search` returns
at most `topK` results; they are ascending by score whenever the opaque
engine returns its ranked rows ascending by distance; every returned record
passes the optional path-prefix post-filter; and, because the filter is
applied after the `topK`-limited scan, a concrete instance returns fewer
than `topK` results even though more matching rows exist in the store. -/
theorem c5_search_topk_order_filter (embed : String → List ℚ)
    (nn : List Record → List ℚ → Nat → List (Record × ℚ))
    (rows : List Record) (query : String) (top_k : Nat) (fp : Option String)
    (hq : query ≠ "")
    (hsorted : (nn rows (embed query) top_k).Pairwise (fun a b => a.2 ≤ b.2)) :
    ∃ ms, search embed nn (some rows) query top_k fp = .ok ms ∧
      ms.length ≤ top_k ∧
      ms.Pairwise (fun a b => a.score ≤ b.score) ∧
      (∀ m ∈ ms, ∀ s, fp = some s → pyStartsWith m.file_path s = true) ∧
      (search embed0 nnDemo (some demoRows) "q" 2 (some "/keep") =
          .ok [mkMatch (exRec "k1" "/keep/a.cs", 1)] ∧
        demoRows.countP (fun r => pyStartsWith r.file_path "/keep") = 2) := by
  have hsearch : search embed nn (some rows) query top_k fp =
      .ok ((((nn rows (embed query) top_k).filter
        (keepRow fp)).map mkMatch).take top_k) := by
    simp [search, hq]
  refine ⟨_, hsearch, List.length_take_le _ _, ?_, ?_, rfl, rfl⟩
  · refine List.Pairwise.sublist (List.take_sublist _ _) ?_
    refine (List.pairwise_map).2 ?_
    exact List.Pairwise.filter _ hsorted
  · intro m hm s hfp
    subst hfp
    have hm2 := (List.take_sublist _ _).mem hm
    obtain ⟨rd, hrd, hrdm⟩ := List.mem_map.1 hm2
    have hkeep := List.of_mem_filter hrd
    subst hrdm
    by_cases hs : s = ""
    · subst hs
      show List.isPrefixOf [] (mkMatch rd).file_path.data = true
      cases (mkMatch rd).file_path.data with
      | nil => rfl
      | cons a l => rfl
    · simpa [keepRow, hs] using hkeep

/-- Witness for C5 at concrete inputs, with the engine hypothesis
discharged on the demo scan. -/
theorem c5_witness :
    ("q" : String) ≠ "" ∧
    (nnDemo demoRows (embed0 "q") 2).Pairwise (fun a b => a.2 ≤ b.2) ∧
    ∃ ms, search embed0 nnDemo (some demoRows) "q" 2 (some "/keep") =
        .ok ms ∧
      ms.length ≤ 2 ∧
      ms.Pairwise (fun a b => a.score ≤ b.score) ∧
      (∀ m ∈ ms, ∀ s, (some "/keep" : Option String) = some s →
        pyStartsWith m.file_path s = true) ∧
      (search embed0 nnDemo (some demoRows) "q" 2 (some "/keep") =
          .ok [mkMatch (exRec "k1" "/keep/a.cs", 1)] ∧
        demoRows.countP (fun r => pyStartsWith r.file_path "/keep") = 2) :=
  ⟨by decide, by decide,
    c5_search_topk_order_filter embed0 nnDemo demoRows "q" 2 (some "/keep")
      (by decide) (by decide)⟩

/-- C9: `removeByFile` (modelled from the spec) deletes exactly the records
whose `filePath` equals the argument, returns their count, and leaves every
record of any other file in place. -/
theorem c9_remove_by_file_frame (rows : List Record) (fp : String) :
    (∀ r ∈ (remove_by_file rows fp).1, r.file_path ≠ fp ∧ r ∈ rows) ∧
    (∀ r ∈ rows, r.file_path ≠ fp → r ∈ (remove_by_file rows fp).1) ∧
    (remove_by_file rows fp).2 = rows.countP (fun r => decide (r.file_path = fp)) ∧
    (remove_by_file rows fp).2 + (remove_by_file rows fp).1.length =
      rows.length := by
  refine ⟨fun r hr => ?_, fun r hr hne => ?_, rfl, ?_⟩
  · exact ⟨by simpa using List.of_mem_filter hr, List.mem_of_mem_filter hr⟩
  · exact List.mem_filter.2 ⟨hr, by simpa using hne⟩
  · show rows.countP _ + (rows.filter _).length = rows.length
    rw [← List.countP_eq_length_filter]
    have hc : rows.countP (fun r => decide (r.file_path ≠ fp)) =
        rows.countP (fun a => decide (¬ decide (a.file_path = fp) = true)) := by
      apply List.countP_congr
      intro a _
      simp
    have hlen := List.length_eq_countP_add_countP
      (l := rows) (p := fun r => decide (r.file_path = fp))
    omega

/-- Witness for C9: the three-of-five scenario; removal reports `3` and the
two records of other files survive. -/
theorem c9_witness :
    (remove_by_file rows5 "/a.cs").2 = 3 ∧
    (remove_by_file rows5 "/a.cs").1.length = 2 ∧
    exRec "d1" "/b.cs" ∈ (remove_by_file rows5 "/a.cs").1 ∧
    exRec "d2" "/c.md" ∈ (remove_by_file rows5 "/a.cs").1 := by
  have h := c9_remove_by_file_frame rows5 "/a.cs"
  refine ⟨h.2.2.1.trans (by decide), by decide, ?_, ?_⟩
  · exact h.2.1 (exRec "d1" "/b.cs") (by simp [rows5]) (by decide)
  · exact h.2.1 (exRec "d2" "/c.md") (by simp [rows5]) (by decide)

/-- C1: under `updateExisting` (modelled from the spec), a batch of
well-formed chunks all belonging to one file first purges every stored
record of that file, so the resulting store holds exactly the batch's
chunks for that file — the new chunk count, not old plus new.  The last
hypothesis rules out the batch's fingerprints colliding with records of
other files, which the purge does not touch. -/
theorem c1_update_replaces_file (embed : String → List ℚ)
    (sha : String → String) (now : String) (rows : List Record)
    (chunks : List ChunkDict) (fp : String)
    (hall : ∀ c ∈ chunks, c.file_path = fp ∧ c.content ≠ "")
    (hne : chunks ≠ []) (hfp : fp ≠ "")
    (hdisj : ∀ c ∈ chunks, compute_hash sha c.content c.file_path ∉
      (rows.filter (fun r => decide (r.file_path ≠ fp))).map
        (fun r => r.chunk_hash)) :
    (add_chunks_update embed sha now (some rows) chunks true).2 =
      chunks.length ∧
    ((add_chunks_update embed sha now (some rows) chunks true).1.getD
      []).countP (fun r => decide (r.file_path = fp)) = chunks.length ∧
    (∀ r ∈ (add_chunks_update embed sha now (some rows) chunks true).1.getD
      [], r.file_path = fp → r ∈ batchRecords embed sha now chunks) := by
  have hrec_eq : batchRecords embed sha now chunks =
      chunks.map (mkRecord embed sha now) := by
    rw [batchRecords_eq]
    have hf : chunks.filter
        (fun c => decide (c.content ≠ "" ∧ c.file_path ≠ "")) = chunks :=
      List.filter_eq_self.2 (fun c hc => by
        rcases hall c hc with ⟨hp, hcnt⟩
        simp only [decide_eq_true_eq]
        exact ⟨hcnt, by rw [hp]; exact hfp⟩)
    rw [hf]
  have hrecne : batchRecords embed sha now chunks ≠ [] := by
    rw [hrec_eq]
    simpa using hne
  have hpaths : ∀ rec ∈ batchRecords embed sha now chunks,
      rec.file_path = fp := by
    rw [hrec_eq]
    intro rec hrecm
    obtain ⟨c, hc, hcr⟩ := List.mem_map.1 hrecm
    subst hcr
    exact (hall c hc).1
  have hrows1 : rows.filter (fun r => decide (r.file_path ∉
      (batchRecords embed sha now chunks).map (fun x => x.file_path))) =
      rows.filter (fun r => decide (r.file_path ≠ fp)) := by
    apply List.filter_congr
    intro r _
    simp only [decide_eq_decide]
    constructor
    · intro hnotin heq
      obtain ⟨rec, hrecmem⟩ := List.exists_mem_of_ne_nil _ hrecne
      refine hnotin ?_
      rw [heq, ← hpaths rec hrecmem]
      exact List.mem_map_of_mem _ hrecmem
    · intro hne' hin
      obtain ⟨rec, hrecmem, hreceq⟩ := List.mem_map.1 hin
      exact hne' (hreceq ▸ hpaths rec hrecmem)
  have hnew : (batchRecords embed sha now chunks).filter
      (fun r => decide (r.chunk_hash ∉
        ((rows.filter (fun r => decide (r.file_path ≠ fp))).map
          (fun x => x.chunk_hash)))) = batchRecords embed sha now chunks := by
    apply List.filter_eq_self.2
    intro rec hrecm
    rw [hrec_eq] at hrecm
    obtain ⟨c, hc, hcr⟩ := List.mem_map.1 hrecm
    subst hcr
    simpa using hdisj c hc
  have h2 : (batchRecords embed sha now chunks).isEmpty = false := by
    cases hb : batchRecords embed sha now chunks with
    | nil => exact absurd hb hrecne
    | cons a b => rfl
  have heval : add_chunks_update embed sha now (some rows) chunks true =
      (some (rows.filter (fun r => decide (r.file_path ≠ fp)) ++
        batchRecords embed sha now chunks),
      (batchRecords embed sha now chunks).length) := by
    simp only [add_chunks_update, h2, Bool.false_eq_true, if_false, if_true,
      hrows1, hnew]
  rw [heval]
  simp only [Option.getD_some]
  refine ⟨by rw [hrec_eq, List.length_map], ?_, fun r hr hrfp => ?_⟩
  · rw [List.countP_append]
    have hz : (rows.filter (fun r => decide (r.file_path ≠ fp))).countP
        (fun r => decide (r.file_path = fp)) = 0 := by
      rw [List.countP_eq_zero]
      intro r hr
      have := List.of_mem_filter hr
      simp only [decide_eq_true_eq] at this ⊢
      exact this
    have hful : (batchRecords embed sha now chunks).countP
        (fun r => decide (r.file_path = fp)) =
        (batchRecords embed sha now chunks).length := by
      rw [List.countP_eq_length]
      intro rec hrecm
      simp only [decide_eq_true_eq]
      exact hpaths rec hrecm
    rw [hz, hful, hrec_eq, List.length_map]
    omega
  · rcases List.mem_append.1 hr with hl | hrm
    · have := List.of_mem_filter hl
      simp only [decide_eq_true_eq] at this
      exact absurd hrfp this
    · exact hrm

/-- Witness for C1: re-indexing `/f.cs` with three fresh chunks over a
store holding two old `/f.cs` chunks and one `/g.cs` chunk leaves exactly
three `/f.cs` records, all from the new batch. -/
theorem c1_witness :
    (add_chunks_update embed0 sha0 "t" (some owRows) fChunks true).2 = 3 ∧
    ((add_chunks_update embed0 sha0 "t" (some owRows) fChunks true).1.getD
      []).countP (fun r => decide (r.file_path = "/f.cs")) = 3 := by
  have h := c1_update_replaces_file embed0 sha0 "t" owRows fChunks "/f.cs"
    (by decide) (by decide) (by decide) (by decide)
  exact ⟨h.1.trans (by decide), h.2.1.trans (by decide)⟩

/-- The paragraph loop keeps, in order, exactly the stripped paragraphs
meeting the character floor. -/
theorem chunkTextParas_contents (f p : String) :
    ∀ (paras : List String) (acc : List Chunk) (ln : Nat),
    (paras.foldl (chunkTextStep f p) (acc, ln)).1.map (fun c => c.content) =
      acc.map (fun c => c.content) ++
        (paras.map pyStrip).filter
          (fun s => decide (MIN_CHUNK_CHARS ≤ s.length)) := by
  intro paras
  induction paras with
  | nil => intro acc ln; simp
  | cons para rest ih =>
    intro acc ln
    rw [List.foldl_cons]
    by_cases h : MIN_CHUNK_CHARS ≤ (pyStrip para).length
    · have hstep : chunkTextStep f p (acc, ln) para =
          (acc ++ [⟨pyStrip para, f, p, ln, ln + (countNL (pyStrip para) + 1) - 1⟩],
            ln + (countNL (pyStrip para) + 1) + 2) := by
        simp [chunkTextStep, h]
      rw [hstep, ih]
      simp [h]
    · have hstep : chunkTextStep f p (acc, ln) para =
          (acc, ln + (countNL para + 1) + 2) := by
        simp [chunkTextStep, h]
      rw [hstep, ih]
      simp [h]

/-- The paragraph loop produces non-overlapping, strictly ascending line
spans: the running line counter strictly exceeds every emitted end line. -/
theorem chunkTextParas_order (f p : String) :
    ∀ (paras : List String) (acc : List Chunk) (ln : Nat),
    (∀ ch ∈ acc, ch.end_line < ln) →
    acc.Chain' (fun a b => a.end_line < b.start_line) →
    (∀ ch ∈ acc, ch.start_line ≤ ch.end_line) →
    (paras.foldl (chunkTextStep f p) (acc, ln)).1.Chain'
        (fun a b => a.end_line < b.start_line) ∧
      (∀ ch ∈ (paras.foldl (chunkTextStep f p) (acc, ln)).1,
        ch.start_line ≤ ch.end_line) := by
  intro paras
  induction paras with
  | nil => intro acc ln _ h2 h3; exact ⟨h2, h3⟩
  | cons para rest ih =>
    intro acc ln h1 h2 h3
    rw [List.foldl_cons]
    by_cases h : MIN_CHUNK_CHARS ≤ (pyStrip para).length
    · have hstep : chunkTextStep f p (acc, ln) para =
          (acc ++ [⟨pyStrip para, f, p, ln, ln + (countNL (pyStrip para) + 1) - 1⟩],
            ln + (countNL (pyStrip para) + 1) + 2) := by
        simp [chunkTextStep, h]
      rw [hstep]
      refine ih _ _ ?_ ?_ ?_
      · intro ch hch
        rcases List.mem_append.1 hch with hl | hr
        · have := h1 ch hl
          omega
        · rcases List.mem_singleton.1 hr with rfl
          simp only []
          omega
      · rw [List.chain'_append]
        refine ⟨h2, List.chain'_singleton _, ?_⟩
        intro x hx y hy
        rw [List.head?_cons, Option.mem_some_iff] at hy
        subst hy
        have hx' := List.mem_of_mem_getLast? hx
        have := h1 x hx'
        simpa using this
      · intro ch hch
        rcases List.mem_append.1 hch with hl | hr
        · exact h3 ch hl
        · rcases List.mem_singleton.1 hr with rfl
          simp only []
          omega
    · have hstep : chunkTextStep f p (acc, ln) para =
          (acc, ln + (countNL para + 1) + 2) := by
        simp [chunkTextStep, h]
      rw [hstep]
      refine ih _ _ (fun ch hch => ?_) h2 h3
      have := h1 ch hch
      omega

/-- C6: the prose chunker splits on blank-line separators and keeps exactly
the paragraphs whose stripped length meets the 50-character floor (no
line-count floor); the emitted line spans are well-formed and strictly
ascending, skipped paragraphs still advancing the line counter; and the
three-paragraph file with one short middle word yields exactly 2 chunks. -/
theorem c6_chunk_text_paragraphs (f p content : String) :
    ((chunk_text f p content).map (fun c => c.content) =
      ((pyParas content).map pyStrip).filter
        (fun s => decide (MIN_CHUNK_CHARS ≤ s.length))) ∧
    (chunk_text f p content).Chain' (fun a b => a.end_line < b.start_line) ∧
    (∀ ch ∈ chunk_text f p content, ch.start_line ≤ ch.end_line) ∧
    ((chunk_text "n.md" "/p/n.md" proseContent).map
        (fun c => (c.start_line, c.end_line)) = [(1, 1), (7, 7)] ∧
      (chunk_text "n.md" "/p/n.md" proseContent).length = 2) := by
  have horder := chunkTextParas_order f p (pyParas content) [] 1
    (by simp) (by simp) (by simp)
  refine ⟨?_, horder.1, horder.2, by decide, by decide⟩
  have := chunkTextParas_contents f p (pyParas content) [] 1
  simpa [chunk_text, chunkTextParas] using this

/-- Witness for C6: the three-paragraph scenario, extracted from the claim
theorem at its concrete input. -/
theorem c6_witness :
    (chunk_text "n.md" "/p/n.md" proseContent).map
      (fun c => (c.start_line, c.end_line)) = [(1, 1), (7, 7)] ∧
    (chunk_text "n.md" "/p/n.md" proseContent).length = 2 :=
  (c6_chunk_text_paragraphs "n.md" "/p/n.md" proseContent).2.2.2

/-- Stripping never lengthens a string. -/
theorem pyStrip_length_le (s : String) : (pyStrip s).length ≤ s.length := by
  show (((s.data.dropWhile Char.isWhitespace).reverse.dropWhile
    Char.isWhitespace).reverse).length ≤ s.data.length
  rw [List.length_reverse]
  calc ((s.data.dropWhile Char.isWhitespace).reverse.dropWhile
      Char.isWhitespace).length
      ≤ (s.data.dropWhile Char.isWhitespace).reverse.length :=
        (List.dropWhile_sublist _).length_le
    _ = (s.data.dropWhile Char.isWhitespace).length := List.length_reverse _
    _ ≤ s.data.length := (List.dropWhile_sublist _).length_le

/-- Unfolding of the joiner on a list with at least two elements. -/
theorem joinNL_cons (x : String) (xs : List String) (h : xs ≠ []) :
    joinNL (x :: xs) = x ++ "\n" ++ joinNL xs := by
  cases xs with
  | nil => exact absurd rfl h
  | cons y ys => rfl

/-- Joining a suffix never yields a longer string than joining the whole. -/
theorem joinNL_length_right (xs ys : List String) :
    (joinNL ys).length ≤ (joinNL (xs ++ ys)).length := by
  induction xs with
  | nil => simp
  | cons x xs ih =>
    by_cases hxy : xs ++ ys = []
    · obtain ⟨h1, h2⟩ := List.append_eq_nil.1 hxy
      subst h2
      rw [show joinNL ([] : List String) = "" from rfl]
      have h0 : ("" : String).length = 0 := rfl
      omega
    · rw [List.cons_append, joinNL_cons x (xs ++ ys) hxy,
        String.length_append, String.length_append]
      omega

/-- Joining a part never yields a longer string than joining the whole. -/
theorem joinNL_length_left (xs ys : List String) :
    (joinNL xs).length ≤ (joinNL (xs ++ ys)).length := by
  induction xs with
  | nil =>
    rw [show joinNL ([] : List String) = "" from rfl]
    have h0 : ("" : String).length = 0 := rfl
    omega
  | cons x xs ih =>
    by_cases hxs : xs = []
    · subst hxs
      by_cases hys : ys = []
      · subst hys; simp
      · rw [List.cons_append, List.nil_append, joinNL_cons x ys hys,
          String.length_append, String.length_append,
          show joinNL [x] = x from rfl]
        omega
    · have hxsys : xs ++ ys ≠ [] := by
        intro hcon
        exact hxs (List.append_eq_nil.1 hcon).1
      rw [joinNL_cons x xs hxs, List.cons_append,
        joinNL_cons x (xs ++ ys) hxsys, String.length_append,
        String.length_append, String.length_append, String.length_append]
      omega

/-- Joining an infix never yields a longer string than joining the whole. -/
theorem joinNL_length_mono {l1 l2 : List String} (h : l1 <:+: l2) :
    (joinNL l1).length ≤ (joinNL l2).length := by
  obtain ⟨s, t, rfl⟩ := h
  calc (joinNL l1).length ≤ (joinNL (l1 ++ t)).length := joinNL_length_left _ _
    _ ≤ (joinNL (s ++ (l1 ++ t))).length := joinNL_length_right _ _
    _ = (joinNL (s ++ l1 ++ t)).length := by rw [List.append_assoc]

/-- The newline splitter never returns an empty list. -/
theorem splitNLAux_ne_nil (cs : List Char) : ∀ acc, splitNLAux acc cs ≠ [] := by
  induction cs with
  | nil => intro acc; simp [splitNLAux]
  | cons c rest ih =>
    intro acc
    by_cases h : c = '\n'
    · simp [splitNLAux, h]
    · simpa [splitNLAux, h] using ih (c :: acc)

/-- Joining the newline split restores the original characters, with the
pending accumulator prepended. -/
theorem joinNL_splitNLAux (cs : List Char) : ∀ acc,
    joinNL (splitNLAux acc cs) = String.mk (acc.reverse ++ cs) := by
  induction cs with
  | nil => intro acc; simp [splitNLAux, joinNL]
  | cons c rest ih =>
    intro acc
    by_cases h : c = '\n'
    · subst h
      rw [show splitNLAux acc ('\n' :: rest) =
          String.mk acc.reverse :: splitNLAux [] rest from by simp [splitNLAux],
        joinNL_cons _ _ (splitNLAux_ne_nil rest []), ih []]
      apply String.ext
      simp
    · rw [show splitNLAux acc (c :: rest) = splitNLAux (c :: acc) rest from by
        simp [splitNLAux, h], ih (c :: acc)]
      apply String.ext
      simp

/-- Splitting on newlines and joining with newlines is the identity. -/
theorem joinNL_pyLines (s : String) : joinNL (pyLines s) = s := by
  rw [pyLines, joinNL_splitNLAux s.data []]
  apply String.ext
  simp

/-- One loop iteration of `chunk_code` preserves the loop invariant. -/
theorem chunkCodeStep_inv (f p : String) {lines consumed rest : List String}
    {line : String} {st : CodeState}
    (hl : consumed ++ (line :: rest) = lines)
    (hinv : LoopInv lines consumed st) :
    LoopInv lines (consumed ++ [line]) (chunkCodeStep f p st line) := by
  have hpre : (consumed ++ [line]) <+: lines :=
    ⟨rest, by rw [← hl]; simp⟩
  have hlen_le : (consumed ++ [line]).length ≤ lines.length := hpre.length_le
  have htake : lines.take (consumed.length + 1) = consumed ++ [line] := by
    obtain ⟨t, ht⟩ := hpre
    rw [← ht]
    exact List.take_left' (by simp)
  have hdepthline : depthAfter lines (consumed.length + 1) =
      (consumed.map braceDelta).sum + braceDelta line := by
    rw [depthAfter, htake, List.map_append, List.sum_append]
    simp
  have hcursuf : st.current_chunk ++ [line] <:+ consumed ++ [line] := by
    obtain ⟨t, ht⟩ := hinv.cur_suffix
    exact ⟨t, by rw [← List.append_assoc, ht]⟩
  have hcurinf : st.current_chunk ++ [line] <:+: lines :=
    hcursuf.isInfix.trans hpre.isInfix
  have hflushlen : (pyStrip (joinNL (st.current_chunk ++ [line]))).length ≤
      (joinNL lines).length :=
    le_trans (pyStrip_length_le _) (joinNL_length_mono hcurinf)
  have hclen : consumed.length + 1 ≤ lines.length := by
    simpa using hlen_le
  have hln1 : st.line_number + 1 = (consumed ++ [line]).length + 1 := by
    rw [hinv.ln]
    simp
  have hdep1 : st.brace_depth + braceDelta line =
      ((consumed ++ [line]).map braceDelta).sum := by
    rw [List.map_append, List.sum_append, hinv.depth]
    simp
  simp only [chunkCodeStep]
  by_cases hd : st.brace_depth + braceDelta line = 0
  · rw [if_pos hd]
    by_cases hkeep : MIN_CHUNK_CHARS ≤
        (pyStrip (joinNL (st.current_chunk ++ [line]))).length ∧
        MIN_CHUNK_LINES ≤ (st.current_chunk ++ [line]).length
    · rw [if_pos hkeep]
      have hchOK : ChunkOK lines
          ⟨pyStrip (joinNL (st.current_chunk ++ [line])), f, p,
            st.chunk_start_line, st.line_number⟩ := by
        refine ⟨hkeep.1, hflushlen, ?_, hinv.start_pos, ?_, ?_⟩
        · show st.chunk_start_line + MIN_CHUNK_LINES ≤ st.line_number + 1
          have h1 := hinv.start_add
          have h2 := hkeep.2
          simp only [List.length_append, List.length_singleton] at h2
          omega
        · show st.line_number ≤ lines.length
          have := hinv.ln
          omega
        · show depthAfter lines st.line_number = 0
          rw [hinv.ln, hdepthline, ← hinv.depth]
          exact hd
      refine ⟨hln1, hdep1, by simp, by show 1 ≤ st.line_number + 1; omega,
        List.nil_suffix, ?_, ?_, ?_⟩
      · intro ch hch
        rcases List.mem_append.1 hch with hold | hnew
        · exact hinv.chunks_ok ch hold
        · rcases List.mem_singleton.1 hnew with rfl
          exact hchOK
      · show List.Chain' _ (st.chunks ++ [_])
        rw [List.chain'_append]
        refine ⟨hinv.chain, List.chain'_singleton _, ?_⟩
        intro x hx y hy
        rw [List.head?_cons, Option.mem_some_iff] at hy
        subst hy
        exact hinv.end_lt x (List.mem_of_mem_getLast? hx)
      · intro ch hch
        show ch.end_line < st.line_number + 1
        rcases List.mem_append.1 hch with hold | hnew
        · have h1 := hinv.end_lt ch hold
          have h2 := hinv.start_add
          omega
        · rcases List.mem_singleton.1 hnew with rfl
          exact Nat.lt_succ_self _
    · rw [if_neg hkeep]
      refine ⟨hln1, hdep1, by simp, by show 1 ≤ st.line_number + 1; omega,
        List.nil_suffix, hinv.chunks_ok, hinv.chain, ?_⟩
      intro ch hch
      show ch.end_line < st.line_number + 1
      have h1 := hinv.end_lt ch hch
      have h2 := hinv.start_add
      omega
  · rw [if_neg hd]
    refine ⟨hln1, hdep1, ?_, hinv.start_pos, hcursuf, hinv.chunks_ok,
      hinv.chain, hinv.end_lt⟩
    show st.chunk_start_line + (st.current_chunk ++ [line]).length =
      st.line_number + 1
    have := hinv.start_add
    simp only [List.length_append, List.length_singleton]
    omega

/-- The `chunk_code` loop invariant holds of the final fold state. -/
theorem codeFoldState_inv (f p : String) (lines : List String) :
    LoopInv lines lines (codeFoldState f p lines) := by
  suffices h : ∀ (remaining consumed : List String) (st : CodeState),
      consumed ++ remaining = lines → LoopInv lines consumed st →
      LoopInv lines lines (remaining.foldl (chunkCodeStep f p) st) by
    refine h lines [] _ (by simp) ?_
    exact ⟨rfl, rfl, rfl, le_refl 1, List.nil_suffix, by simp,
      List.chain'_nil, by simp⟩
  intro remaining
  induction remaining with
  | nil =>
    intro consumed st hl hinv
    rw [List.append_nil] at hl
    subst hl
    simpa using hinv
  | cons line rest ih =>
    intro consumed st hl hinv
    rw [List.foldl_cons]
    refine ih (consumed ++ [line]) _ (by rw [← hl]; simp) ?_
    exact chunkCodeStep_inv f p hl hinv

/-- Every chunk emitted by the structural chunker (in-loop or flushed)
meets the size floor, fits inside the input, and the emitted spans are
strictly ascending and non-overlapping. -/
theorem chunkCodeLines_props (f p : String) (lines : List String) :
    (∀ ch ∈ chunkCodeLines f p lines,
      MIN_CHUNK_CHARS ≤ ch.content.length ∧
      ch.content.length ≤ (joinNL lines).length ∧
      ch.start_line + MIN_CHUNK_LINES ≤ ch.end_line + 1 ∧
      1 ≤ ch.start_line ∧
      ch.end_line ≤ lines.length + 1 ∧
      ch.start_line + MIN_CHUNK_LINES ≤ lines.length + 1) ∧
    (chunkCodeLines f p lines).Chain' (fun a b => a.end_line < b.start_line) := by
  have hinv := codeFoldState_inv f p lines
  have hprops : ∀ ch ∈ (codeFoldState f p lines).chunks,
      MIN_CHUNK_CHARS ≤ ch.content.length ∧
      ch.content.length ≤ (joinNL lines).length ∧
      ch.start_line + MIN_CHUNK_LINES ≤ ch.end_line + 1 ∧
      1 ≤ ch.start_line ∧
      ch.end_line ≤ lines.length + 1 ∧
      ch.start_line + MIN_CHUNK_LINES ≤ lines.length + 1 := by
    intro ch hch
    rcases hinv.chunks_ok ch hch with ⟨ha, hb, hc, hd, he, -⟩
    exact ⟨ha, hb, hc, hd, by omega, by omega⟩
  unfold chunkCodeLines codeFlush
  dsimp only
  split_ifs with h1 h2
  · have hflushlen :
        (pyStrip (joinNL (codeFoldState f p lines).current_chunk)).length ≤
        (joinNL lines).length :=
      le_trans (pyStrip_length_le _)
        (joinNL_length_mono hinv.cur_suffix.isInfix)
    have hcclen : (codeFoldState f p lines).current_chunk.length ≤
        lines.length :=
      hinv.cur_suffix.length_le
    constructor
    · intro ch hch
      rcases List.mem_append.1 hch with hold | hnew
      · exact hprops ch hold
      · rcases List.mem_singleton.1 hnew with rfl
        have hsa := hinv.start_add
        have hln := hinv.ln
        have hmin := h2.2
        refine ⟨h2.1, hflushlen, ?_, hinv.start_pos, ?_, ?_⟩
        · show (codeFoldState f p lines).chunk_start_line + MIN_CHUNK_LINES ≤
            (codeFoldState f p lines).line_number + 1
          omega
        · show (codeFoldState f p lines).line_number ≤ lines.length + 1
          omega
        · show (codeFoldState f p lines).chunk_start_line + MIN_CHUNK_LINES ≤
            lines.length + 1
          omega
    · rw [List.chain'_append]
      refine ⟨hinv.chain, List.chain'_singleton _, ?_⟩
      intro x hx y hy
      rw [List.head?_cons, Option.mem_some_iff] at hy
      subst hy
      exact hinv.end_lt x (List.mem_of_mem_getLast? hx)
  · exact ⟨hprops, hinv.chain⟩
  · exact ⟨hprops, hinv.chain⟩

set_option maxRecDepth 40000 in
/-- C3 (amended): every chunk the structural chunker keeps has at least 50
stripped characters and spans at least 5 lines, with chunk ranges strictly
ascending and non-overlapping; any input below the size floor (fewer than
50 characters or fewer than 5 lines) yields no chunks at all; and the
20-line two-block file yields exactly the two chunks spanning lines 1-10
and 11-20.  (The boundary fires at every line where the running depth is
zero, not only when it returns to zero from a non-zero value — see the
counterexample.) -/
theorem c3_chunk_code_floor_and_scenario (f p content : String) :
    (∀ ch ∈ chunk_code f p content,
      MIN_CHUNK_CHARS ≤ ch.content.length ∧
      ch.content.length ≤ content.length ∧
      ch.start_line + MIN_CHUNK_LINES ≤ ch.end_line + 1) ∧
    (chunk_code f p content).Chain' (fun a b => a.end_line < b.start_line) ∧
    (content.length < MIN_CHUNK_CHARS → chunk_code f p content = []) ∧
    ((pyLines content).length < MIN_CHUNK_LINES → chunk_code f p content = []) ∧
    ((chunk_code "A.cs" "/proj/A.cs" twentyContent).map
      (fun c => (c.start_line, c.end_line)) = [(1, 10), (11, 20)]) := by
  have hjoin : (joinNL (pyLines content)).length = content.length := by
    rw [joinNL_pyLines]
  have h := chunkCodeLines_props f p (pyLines content)
  refine ⟨fun ch hch => ?_, h.2, ?_, ?_, by decide⟩
  · rcases h.1 ch hch with ⟨ha, hb, hc, -, -, -⟩
    rw [hjoin] at hb
    exact ⟨ha, hb, hc⟩
  · intro hlt
    rcases hout : chunk_code f p content with _ | ⟨ch, rest⟩
    · rfl
    · exfalso
      have hm : ch ∈ chunk_code f p content := by
        rw [hout]
        exact List.mem_cons_self _ _
      rcases h.1 ch hm with ⟨ha, hb, -, -, -, -⟩
      rw [hjoin] at hb
      omega
  · intro hlt
    rcases hout : chunk_code f p content with _ | ⟨ch, rest⟩
    · rfl
    · exfalso
      have hm : ch ∈ chunk_code f p content := by
        rw [hout]
        exact List.mem_cons_self _ _
      rcases h.1 ch hm with ⟨-, -, -, hd, -, hf⟩
      omega

set_option maxRecDepth 40000 in
/-- Witness for C3: the two-block scenario, extracted from the claim
theorem, plus the empty output on a one-line input below the floor. -/
theorem c3_witness :
    ((chunk_code "A.cs" "/proj/A.cs" twentyContent).map
      (fun c => (c.start_line, c.end_line)) = [(1, 10), (11, 20)]) ∧
    ("x".length < MIN_CHUNK_CHARS ∧ chunk_code "A.cs" "/proj/A.cs" "x" = []) :=
  ⟨(c3_chunk_code_floor_and_scenario "A.cs" "/proj/A.cs"
      twentyContent).2.2.2.2,
    by decide,
    (c3_chunk_code_floor_and_scenario "A.cs" "/proj/A.cs" "x").2.2.1
      (by decide)⟩

set_option maxRecDepth 40000 in
/-- C3 counterexample to the claim as stated: on five brace-less lines the
running depth is zero after every line without ever having been non-zero,
yet the code flushes (and drops) a one-line chunk at every line, returning
nothing — while a chunker that emits boundaries only when the depth returns
to zero from a non-zero value keeps the whole 5-line, 64-character file as
one chunk. -/
theorem c3_counterexample :
    chunk_code "a.cs" "/p/a.cs" flatContent = [] ∧
    (chunkCodeSpecWords "a.cs" "/p/a.cs" flatContent).map
      (fun c => (c.start_line, c.end_line)) = [(1, 6)] ∧
    MIN_CHUNK_CHARS ≤ (pyStrip flatContent).length ∧
    MIN_CHUNK_LINES ≤ (pyLines flatContent).length := by
  refine ⟨by decide, by decide, by decide, by decide⟩

/-- C10: when the final chunk comes from the end-of-input flush (the depth
was not at a boundary after the last line), its recorded `end_line` is the
number of lines plus one — one past the last actual line — while every
in-loop chunk ends at an actual line at which the cumulative depth returned
to zero. -/
theorem c10_flush_end_line (f p content : String)
    (hcur : (codeFoldState f p (pyLines content)).current_chunk ≠ [])
    (hchars : MIN_CHUNK_CHARS ≤ (pyStrip (joinNL
      (codeFoldState f p (pyLines content)).current_chunk)).length)
    (hlines : MIN_CHUNK_LINES ≤
      (codeFoldState f p (pyLines content)).current_chunk.length) :
    (chunk_code f p content =
      (codeFoldState f p (pyLines content)).chunks ++
        [⟨pyStrip (joinNL
            (codeFoldState f p (pyLines content)).current_chunk), f, p,
          (codeFoldState f p (pyLines content)).chunk_start_line,
          (pyLines content).length + 1⟩]) ∧
    (∀ ch ∈ (codeFoldState f p (pyLines content)).chunks,
      ch.end_line ≤ (pyLines content).length ∧
      depthAfter (pyLines content) ch.end_line = 0) := by
  have hinv := codeFoldState_inv f p (pyLines content)
  constructor
  · show codeFlush f p (codeFoldState f p (pyLines content)) = _
    unfold codeFlush
    rw [if_pos hcur, if_pos ⟨hchars, hlines⟩, hinv.ln]
  · intro ch hch
    exact ⟨(hinv.chunks_ok ch hch).end_le, (hinv.chunks_ok ch hch).depth0⟩

set_option maxRecDepth 40000 in
/-- Witness for C10: the never-closed-brace file; its single flush chunk
ends at line 7 on a 6-line input. -/
theorem c10_witness :
    (codeFoldState "u.cs" "/p/u.cs" (pyLines unbalContent)).current_chunk ≠
      [] ∧
    MIN_CHUNK_CHARS ≤ (pyStrip (joinNL
      (codeFoldState "u.cs" "/p/u.cs" (pyLines unbalContent)).current_chunk)).length ∧
    MIN_CHUNK_LINES ≤
      (codeFoldState "u.cs" "/p/u.cs" (pyLines unbalContent)).current_chunk.length ∧
    (chunk_code "u.cs" "/p/u.cs" unbalContent).map
      (fun c => (c.start_line, c.end_line)) = [(1, 7)] ∧
    (pyLines unbalContent).length = 6 := by
  refine ⟨by decide, by decide, by decide, ?_, by decide⟩
  have h := c10_flush_end_line "u.cs" "/p/u.cs" unbalContent (by decide)
    (by decide) (by decide)
  rw [h.1]
  decide

end RagSpec
